import Mathlib

/-!
Verification of the extractor_tool repository (Go).

This file gives a shallow embedding of the parts of
`extractor/extractor.go` that the verified properties are about:

* the commit-log parsing loop of `commitWorker` (lines 307-430),
* the per-commit analysis loop of `libraryWorker` (lines 484-569),
* the day-key computation `getStartOfDayFromStringDate` (lines 571-574),
* the helper functions `contains`, `commitContainsExistingDate`,
  `removeDuplicateStrings`, `addUniqueEmailToCommitAuthorEmailsSlice`
  (lines 576-612),
* the aggregation loop of `export` (lines 646-709).

Go machine integers are modelled as `Int` (the counts involved are
line-change counts coming from `strconv.Atoi`; no claim depends on
64-bit wrap-around).  Go maps with `string` keys are modelled as
association lists together with a first-match lookup; every map built
by the embedded code keeps its keys unique, so first-match lookup
agrees with Go map lookup.  Go standard-library string functions used
by the source (`strings.Fields`, `strings.Contains`, `strings.Split`,
`strconv.Atoi`, `filepath.Ext`, `strings.Replace`) are re-implemented
below on character lists, following their documented semantics.
-/

/-! ## Go standard-library string helpers -/

/-- Whitespace recognised by `strings.Fields` (ASCII subset of
`unicode.IsSpace`; the git log lines being split contain only spaces
and tabs as separators). -/
def isGoSpace (c : Char) : Bool :=
  c = ' ' ∨ c = '\t' ∨ c = '\n' ∨ c = '\r' ∨ c = Char.ofNat 11 ∨ c = Char.ofNat 12

/-- Helper of `goFields`: splits a character list around runs of
whitespace, accumulating the current (reversed) field. -/
def goFieldsAux : List Char → List Char → List String
  | [], [] => []
  | [], cur => [String.mk cur.reverse]
  | c :: rest, cur =>
    if isGoSpace c then
      match cur with
      | [] => goFieldsAux rest []
      | _ => String.mk cur.reverse :: goFieldsAux rest []
    else goFieldsAux rest (c :: cur)

/-- Model of `strings.Fields`: splits around runs of whitespace, no empty fields. -/
def goFields (s : String) : List String := goFieldsAux s.toList []

/-- Whether `p` is a (character-level) prefix of `h`. -/
def isPre : List Char → List Char → Bool
  | [], _ => true
  | _ :: _, [] => false
  | p :: ps, h :: hs => p = h && isPre ps hs

/-- Helper of `goContains`: whether `pat` occurs inside `hay`. -/
def listContainsSub (pat : List Char) : List Char → Bool
  | [] => isPre pat []
  | c :: rest => isPre pat (c :: rest) || listContainsSub pat rest

/-- Model of `strings.Contains s substr`: whether `substr` occurs within `s`. -/
def goContains (s substr : String) : Bool := listContainsSub substr.toList s.toList

/-- Digit test for `strconv.Atoi`. -/
def isGoDigit (c : Char) : Bool := '0' ≤ c ∧ c ≤ '9'

/-- Value of an all-digit character list, `none` if empty or non-digit. -/
def digitsVal : List Char → Option Nat
  | [] => none
  | [c] => if isGoDigit c then some (c.toNat - '0'.toNat) else none
  | c :: rest =>
    if isGoDigit c then
      (digitsVal rest).map (fun v => (c.toNat - '0'.toNat) * 10 ^ rest.length + v)
    else none

/-- Model of `strconv.Atoi`: optional sign followed by at least one digit.
(The int64 overflow error of Go is not modelled; the stat fields being
parsed are line counts.) -/
def goAtoi (s : String) : Option Int :=
  match s.toList with
  | '+' :: rest => (digitsVal rest).map (fun v => (v : Int))
  | '-' :: rest => (digitsVal rest).map (fun v => -(v : Int))
  | l => (digitsVal l).map (fun v => (v : Int))

/-- Helper of `splitSep`: splits a character list at every occurrence
of the token used by the git pretty format, left to right,
non-overlapping, exactly as `strings.Split(s, sep)` does. -/
def splitSepAux : List Char → List Char → List (List Char)
  | '|' :: '|' :: '|' :: 'S' :: 'E' :: 'P' :: '|' :: '|' :: '|' :: rest, cur =>
    cur.reverse :: splitSepAux rest []
  | c :: rest, cur => splitSepAux rest (c :: cur)
  | [], cur => [cur.reverse]

/-- Model of `strings.Split(s, sep)` for the fixed separator used by the
harvester pretty format. -/
def splitSep (s : String) : List String := (splitSepAux s.toList []).map String.mk

/-- Model of `strings.Replace(s, old, "", -1)` for the fixed pattern of three
characters dot dot slash: removes every (left-to-right,
non-overlapping) occurrence. Used on extracted library identifiers in
`libraryWorker` (line 556). -/
def stripDotDotAux : List Char → List Char
  | '.' :: '.' :: '/' :: rest => stripDotDotAux rest
  | c :: rest => c :: stripDotDotAux rest
  | [] => []

/-- All-occurrence removal of the relative-path marker, as the code does. -/
def stripDotDot (s : String) : String := String.mk (stripDotDotAux s.toList)

/-- Modelled from the spec: stripping only the LEADING relative-path
markers of an identifier ("stripping any leading relative-path markers
before being stored").  Used solely to compare the spec's wording with
the behaviour of the code. -/
def stripLeadingDotDotAux : List Char → List Char
  | '.' :: '.' :: '/' :: rest => stripLeadingDotDotAux rest
  | l => l

/-- Spec-side variant of `stripDotDot`: removes leading markers only. -/
def stripLeadingDotDot (s : String) : String := String.mk (stripLeadingDotDotAux s.toList)

/-- Helper of `filepathExt`: scans the reversed path; stops at a path
separator (no extension) or at the first dot from the end. -/
def filepathExtAux : List Char → List Char → String
  | [], _ => ""
  | c :: rest, acc =>
    if c = '/' then ""
    else if c = '.' then String.mk ('.' :: acc)
    else filepathExtAux rest (c :: acc)

/-- Model of `filepath.Ext`: the suffix beginning at the final dot in the final
element of the path, empty if there is none. -/
def filepathExt (p : String) : String := filepathExtAux p.toList.reverse []

/-- Drops the first `n` characters of a string (used for removing the
begin sentinel, `strings.Replace(m, sentinel, "", 1)` on a line that
starts with the sentinel). -/
def dropChars (n : Nat) (s : String) : String := String.mk (s.toList.drop n)

/-- Whether a line starts with the begin sentinel of the pretty format. -/
def isBeginLine (m : String) : Bool := isPre "|||BEGIN|||".toList m.toList

/-! ## Dates

`commitWorker` stores dates as strings in the fixed layout
`2006-01-02 15:04:05 -0700` (or the empty string when git's own date
line did not parse).  `getStartOfDayFromStringDate` parses that layout
back with `time.Parse` and truncates.  The parser below models Go's
`time.Parse` of that layout on its canonical zero-padded form — the
only form the harvester ever produces, since it creates these strings
with `t.Format` of the very same layout. -/

/-- A parsed wall-clock date: the components of the date string
together with its UTC offset in minutes. -/
structure GoTime where
  year : Int
  month : Nat
  day : Nat
  hour : Nat
  minute : Nat
  second : Nat
  offsetMin : Int
deriving DecidableEq

/-- Gregorian leap year, as `time.Date` uses. -/
def isLeapYear (y : Int) : Bool := (y % 4 = 0 ∧ y % 100 ≠ 0) ∨ y % 400 = 0

/-- Number of days of a month. -/
def daysInMonth (y : Int) (m : Nat) : Nat :=
  if m = 2 then (if isLeapYear y then 29 else 28)
  else if m = 4 ∨ m = 6 ∨ m = 9 ∨ m = 11 then 30
  else 31

/-- Numeric value of two digit characters. -/
def twoDigits (a b : Char) : Nat := (a.toNat - '0'.toNat) * 10 + (b.toNat - '0'.toNat)

/-- Model of `time.Parse("2006-01-02 15:04:05 -0700", s)` on canonical
zero-padded strings: checks the exact layout and the component ranges
Go validates, returning the components and the offset in minutes. -/
def parseFixedDate (s : String) : Option GoTime :=
  match s.toList with
  | [y1, y2, y3, y4, '-', m1, m2, '-', d1, d2, ' ',
     h1, h2, ':', n1, n2, ':', s1, s2, ' ', sg, o1, o2, o3, o4] =>
    if ([y1, y2, y3, y4, m1, m2, d1, d2, h1, h2, n1, n2, s1, s2, o1, o2, o3, o4].all isGoDigit)
        ∧ (sg = '+' ∨ sg = '-') then
      if 1 ≤ twoDigits m1 m2 ∧ twoDigits m1 m2 ≤ 12 ∧ 1 ≤ twoDigits d1 d2
          ∧ twoDigits d1 d2 ≤
              daysInMonth ((twoDigits y1 y2) * 100 + twoDigits y3 y4 : Nat) (twoDigits m1 m2)
          ∧ twoDigits h1 h2 ≤ 23 ∧ twoDigits n1 n2 ≤ 59 ∧ twoDigits s1 s2 ≤ 59
          ∧ twoDigits o3 o4 ≤ 59 then
        some ⟨((twoDigits y1 y2) * 100 + twoDigits y3 y4 : Nat), twoDigits m1 m2,
              twoDigits d1 d2, twoDigits h1 h2, twoDigits n1 n2, twoDigits s1 s2,
              if sg = '-' then -(((twoDigits o1 o2) * 60 + twoDigits o3 o4 : Nat) : Int)
              else (((twoDigits o1 o2) * 60 + twoDigits o3 o4 : Nat) : Int)⟩
      else none
    else none
  | _ => none

/-- Embedding of `getStartOfDayFromStringDate` (extractor.go lines 571-574): parses
the stored date string, IGNORING the parse error, and builds
`time.Date(Year, Month, Day, 0, 0, 0, 0, time.UTC)`.  The result is
represented by its civil date triple (the time-of-day is always
midnight UTC).  On a parse failure `commitDate` is Go's zero `Time`
(January 1, year 1), so the triple is `(1, 1, 1)`.  Note that
`Year()`, `Month()`, `Day()` are the components in the parsed string's
OWN offset, not in UTC. -/
def getStartOfDayFromStringDate (dateString : String) : Int × Nat × Nat :=
  match parseFixedDate dateString with
  | some t => (t.year, t.month, t.day)
  | none => (1, 1, 1)

/-- Decimal digits of a natural number, zero-padded to width `w`. -/
def padNum (w : Nat) (n : Nat) : String :=
  let s := toString n
  String.mk (List.replicate (w - s.length) '0') ++ s

/-- Rendering of `time.Time.String()` of a midnight-UTC `time.Date` value, e.g.
`0001-01-01 00:00:00 +0000 UTC`.  This string is the day key the
aggregation loop compares buckets by (`commitDateStartHour.String()`). -/
def goTimeString (d : Int × Nat × Nat) : String :=
  padNum 4 d.1.natAbs ++ "-" ++ padNum 2 d.2.1 ++ "-" ++ padNum 2 d.2.2
    ++ " 00:00:00 +0000 UTC"

/-- The day key of a stored date string, as the export loop computes it. -/
def dayKeyString (dateString : String) : String :=
  goTimeString (getStartOfDayFromStringDate dateString)

/-- Days since 1970-01-01 of a civil date (standard civil-from-days
algorithm; used to state what a UTC day boundary is). -/
def epochDays (y : Int) (m d : Nat) : Int :=
  let y' : Int := if m ≤ 2 then y - 1 else y
  let era : Int := (if 0 ≤ y' then y' else y' - 399).ediv 400
  let yoe : Int := y' - era * 400
  let mp : Int := if 2 < m then (m : Int) - 3 else (m : Int) + 9
  let doy : Int := (153 * mp + 2).ediv 5 + (d : Int) - 1
  let doe : Int := yoe * 365 + yoe.ediv 4 - yoe.ediv 100 + doy
  era * 146097 + doe - 719468

/-- Modelled from the spec: the day key is claimed to be "commit date
truncated to a UTC day boundary", i.e. the UTC day containing the
commit instant.  This computes that day (as days since the epoch) from
the parsed date: total minutes of the instant (components minus the
UTC offset), floor-divided by the minutes of a day.  Seconds cannot
move the floor across the day boundary because offsets are whole
minutes. -/
def specUtcDayNumber (t : GoTime) : Int :=
  (epochDays t.year t.month t.day * 1440 + ((t.hour * 60 + t.minute : Nat) : Int)
    - t.offsetMin).ediv 1440

example : parseFixedDate "2024-06-01 01:00:00 +0200" =
    some ⟨2024, 6, 1, 1, 0, 0, 120⟩ := by decide
example : parseFixedDate "" = none := by decide
example : epochDays 2024 6 1 = 19875 := by decide
example : specUtcDayNumber ⟨2024, 6, 1, 1, 0, 0, 120⟩ = 19874 := by decide
example : dayKeyString "2024-01-01 10:00:00 +0000" =
    "2024-01-01 00:00:00 +0000 UTC" := by decide
example : goFields "3\t0\told.txt => new.txt" =
    ["3", "0", "old.txt", "=>", "new.txt"] := by decide
example : goAtoi "-12" = some (-12) := by decide
example : goAtoi "abc" = none := by decide
example : stripDotDot "a/../b" = "a/b" := by decide
example : stripLeadingDotDot "../../a/../b" = "a/../b" := by decide
example : filepathExt "dir/a.go" = ".go" := by decide
example : filepathExt "dir.d/Makefile" = "" := by decide
example : goContains "=>" "=>" = true := by decide
example : goContains "=>" "old.txt" = false := by decide
example : splitSep "h|||SEP|||an|||SEP|||ae|||SEP|||date" =
    ["h", "an", "ae", "date"] := by decide

/-! ## Data model (package `commit`) -/

/-- Embedding of `commit.ChangedFile`: path, line counts and the language tag the
analysis stage writes exactly once (empty while unset). -/
structure ChangedFile where
  Path : String
  Insertions : Int
  Deletions : Int
  Language : String := ""
deriving DecidableEq

/-- Per-language extracted library identifiers.  Go type
`map[string][]string`; modelled as an association list with
first-match lookup (all maps built by the code have unique keys). -/
abbrev Libs := List (String × List String)

/-- Embedding of `commit.Commit`. -/
structure Commit where
  Hash : String := ""
  AuthorName : String := ""
  AuthorEmail : String := ""
  Date : String := ""
  ChangedFiles : List ChangedFile := []
  Libraries : Libs := []
deriving DecidableEq

/-- Embedding of `commit.OptimizedCommitForExport`: a day bucket. -/
structure OptimizedCommitForExport where
  AuthorEmails : List String
  Date : String
  Languages : List String
  Libraries : Libs
  Insertions : Int
  Deletions : Int
  Commits : Int
deriving DecidableEq

/-! ## Stage 1: the parsing loop of `commitWorker` (lines 333-421)

The scanner loop is embedded as a recursion over the list of output
lines, carrying the current commit (`currectCommit`, `none` before the
first header) and the accumulated batch.  `reformatDate` stands for
the round trip `time.Parse("Mon Jan 2 15:04:05 2006 -0700", ...)`
followed by `t.Format("2006-01-02 15:04:05 -0700")`; on its failure
the code stores the empty string (lines 353-359).  A short header or
stat line, which would panic in Go, is modelled by reading missing
list positions as empty strings; no verified property depends on such
lines. -/

/-- Access `bits[i]`: the Go slice index, empty when out of range (a genuine
out-of-range index panics in Go; the properties proved below never
depend on such lines). -/
def getS (l : List String) (n : Nat) : String :=
  match l, n with
  | [], _ => ""
  | x :: _, 0 => x
  | _ :: xs, n + 1 => getS xs n

/-- One worker's scanner loop over the git log output.  Returns the
parsed batch, or the error the worker returns (unconvertible stat
field, or a stat row reached with no current commit). -/
def parseLogLines (reformatDate : String → Option String) :
    List String → Option Commit → List Commit → Except String (List Commit)
  | [], cur, acc =>
    -- lines 417-421: the last commit is flushed after the scanner ends
    .ok (acc ++ (match cur with | some c => [c] | none => []))
  | m :: rest, cur, acc =>
    if m = "" then parseLogLines reformatDate rest cur acc
    else if isBeginLine m then
      -- lines 342-367: a new commit; flush the current one
      let acc' := acc ++ (match cur with | some c => [c] | none => [])
      let bits := splitSep (dropChars 11 m)
      let dateStr := (reformatDate (getS bits 3)).getD ""
      let newC : Commit :=
        { Hash := getS bits 0, AuthorName := getS bits 1,
          AuthorEmail := getS bits 2, Date := dateStr, ChangedFiles := [] }
      parseLogLines reformatDate rest (some newC) acc'
    else
      -- lines 370-414: a numstat row
      let bits := goFields m
      let insS := getS bits 0
      let insS := if insS = "-" then "0" else insS
      match goAtoi insS with
      | none => .error ("Cannot convert the following into integer: " ++ insS)
      | some insertions =>
        let delS := getS bits 1
        let delS := if delS = "-" then "0" else delS
        match goAtoi delS with
        | none => .error ("Cannot convert the following into integer: " ++ delS)
        | some deletions =>
          let fileName := getS bits 2
          -- line 394: the (reversed-argument) rename-skip predicate
          if goContains "=>" fileName then parseLogLines reformatDate rest cur acc
          else
            match cur with
            | none => .error "did not expect current commit to be null"
            | some c =>
              parseLogLines reformatDate rest
                (some { c with ChangedFiles :=
                          c.ChangedFiles ++ [⟨fileName, insertions, deletions, ""⟩] })
                acc

/-- The fate of worker errors in `getCommits` (lines 200-261): each
worker runs in a goroutine whose wrapper only PRINTS a returned error
(lines 205-210), an errored worker contributes no batch, and
`getCommits` unconditionally returns the collected commits with a nil
error (line 261).  Given the outcome of each worker batch, the
harvest-level outcome is therefore always `.ok` of the successful
batches. -/
def harvestOutcome (workerOutcomes : List (Except String (List Commit))) :
    Except String (List Commit) :=
  .ok (workerOutcomes.foldl
    (fun acc r => match r with | .ok cs => acc ++ cs | .error _ => acc) [])

/-! ## Stage 2: the per-commit loop of `libraryWorker` (lines 484-569)

External collaborators of the loop body are packaged in `WEnv`:
the language detector, the content retrieval subprocess (`none` models
the error/`continue` path of `getFileContent`), and the analyzer
registry (`none` models a `GetAnalyzer` miss).  An analyzer's output
is its extracted identifier list (on an extraction error the code only
prints and still uses the returned slice, so the error path is the
empty list).  The shared cancellation context is modelled by the
optional index `deadline` of the file iteration from which on
`ctx.Done()` is closed (once done, always done). -/

structure WEnv where
  shouldUseFile : String → Bool
  detectLanguageFromFile : String → String → String
  detectLanguageFromExtension : String → String
  getFileContent : String → String → Option String
  getAnalyzer : String → Option (String → List String)
  SkipLibraries : Bool

/-- Whether `ctx.Done()` is closed at file iteration `n`. -/
def ctxDone (deadline : Option Nat) (n : Nat) : Bool :=
  match deadline with
  | some d => d ≤ n
  | none => false

/-- Lines 558-561: ensure the slice for `lang` exists, then append the
file's identifiers. -/
def lookupLibs : Libs → String → Option (List String)
  | [], _ => none
  | (k, v) :: rest, key => if k = key then some v else lookupLibs rest key

/-- Replaces the value stored at a key (first occurrence). -/
def updateLibs : Libs → String → List String → Libs
  | [], _, _ => []
  | (k, v) :: rest, key, nv =>
    if k = key then (key, nv) :: rest else (k, v) :: updateLibs rest key nv

/-- Go map assignment `m[k] = v`: overwrite or insert. -/
def mapSet (m : Libs) (key : String) (nv : List String) : Libs :=
  match lookupLibs m key with
  | some _ => updateLibs m key nv
  | none => m ++ [(key, nv)]

/-- Lines 558-561 of `libraryWorker`. -/
def addLibs (libs : Libs) (lang : String) (items : List String) : Libs :=
  match lookupLibs libs lang with
  | some cur => updateLibs libs lang (cur ++ items)
  | none => libs ++ [(lang, items)]

/-- Lines 536-562 of the file loop: everything after `lang` has been
determined — skip unknown languages, tag the file, look up the
analyzer, fetch content if not already fetched, extract identifiers,
strip the relative-path markers, record them. -/
def analyzeFileWithLang (env : WEnv) (hash : String) (f : ChangedFile)
    (libs : Libs) (lang : String) (contentsOpt : Option String) :
    ChangedFile × Libs :=
  if lang = "" then (f, libs)
  else
    let f' := { f with Language := lang }
    if env.SkipLibraries then (f', libs)
    else
      match env.getAnalyzer lang with
      | none => (f', libs)
      | some analyzer =>
        match (match contentsOpt with
               | some c => some c
               | none => env.getFileContent hash f.Path) with
        | none => (f', libs)
        | some contents =>
          let fileLibraries := (analyzer contents).map (fun s => stripDotDot s)
          (f', addLibs libs lang fileLibraries)

/-- The body of the file loop for one `fileChange` (lines 511-562),
below the cancellation check: detect the language, tag the file, and
extract + strip + record the libraries.  Returns the (possibly
language-tagged) file and the updated per-commit library map. -/
def analyzeFile (env : WEnv) (hash : String) (f : ChangedFile) (libs : Libs) :
    ChangedFile × Libs :=
  let extension := filepathExt f.Path
  if extension = "" then (f, libs)
  else
    let extension := dropChars 1 extension
    if env.shouldUseFile extension then
      match env.getFileContent hash f.Path with
      | none => (f, libs)
      | some contents =>
        analyzeFileWithLang env hash f libs
          (env.detectLanguageFromFile f.Path contents) (some contents)
    else
      analyzeFileWithLang env hash f libs
        (env.detectLanguageFromExtension extension) none

/-- The file loop of `libraryWorker` for one commit (lines 497-563).
`n` is the iteration index, `done` the already-visited files (with
their language tags), `libs` the accumulated library map.  Returns the
commits emitted INSIDE the loop by the cancellation branch (lines
499-509: emit the commit with the partial data and `continue` — which
continues the FILE loop, so this happens once per remaining file),
together with the final file list and library map. -/
def runFiles (env : WEnv) (hash : String) (base : Commit) (deadline : Option Nat) :
    Nat → List ChangedFile → List ChangedFile → Libs →
    List Commit × List ChangedFile × Libs
  | _, [], done, libs => ([], done, libs)
  | n, f :: rest, done, libs =>
    if ctxDone deadline n then
      let emitted : Commit :=
        { base with ChangedFiles := done ++ f :: rest, Libraries := libs }
      let r := runFiles env hash base deadline (n + 1) rest (done ++ [f]) libs
      (emitted :: r.1, r.2.1, r.2.2)
    else
      let r := analyzeFile env hash f libs
      runFiles env hash base deadline (n + 1) rest (done ++ [r.1]) r.2

/-- The commit emitted after the file loop ends (lines 564-566). -/
def workerFinalCommit (env : WEnv) (deadline : Option Nat) (c : Commit) : Commit :=
  let base : Commit :=
    { Hash := c.Hash, AuthorName := c.AuthorName, AuthorEmail := c.AuthorEmail,
      Date := c.Date, ChangedFiles := c.ChangedFiles, Libraries := [] }
  let r := runFiles env c.Hash base deadline 0 c.ChangedFiles [] []
  { base with ChangedFiles := r.2.1, Libraries := r.2.2 }

/-- All commits `libraryWorker` sends on `commitPipeline` for one input
commit, in order.  Each send is immediately followed by one completion
signal on `results` (lines 505-507 and 565-566), so this list also
counts the completion signals. -/
def libraryWorkerCommit (env : WEnv) (deadline : Option Nat) (c : Commit) :
    List Commit :=
  let base : Commit :=
    { Hash := c.Hash, AuthorName := c.AuthorName, AuthorEmail := c.AuthorEmail,
      Date := c.Date, ChangedFiles := c.ChangedFiles, Libraries := [] }
  let r := runFiles env c.Hash base deadline 0 c.ChangedFiles [] []
  r.1 ++ [{ base with ChangedFiles := r.2.1, Libraries := r.2.2 }]

/-! ## Stage 3: the aggregation loop of `export` (lines 646-709)

The select loop consumes one enriched commit at a time and folds it
into the list of day buckets; it is embedded as a fold over the list
of commits received on the pipeline (the HashImportant obfuscation
transform lives outside this repository and is modelled disabled). -/

/-- The helper `contains` (lines 576-583). -/
def contains : List String → String → Bool
  | [], _ => false
  | x :: xs, v => if x = v then true else contains xs v

/-- The helper `removeDuplicateStrings` (lines 594-604).  The `allKeys`
map always holds exactly the elements already appended to `list`, so
the membership test is a test against the accumulated output. -/
def appendUnique (acc : List String) (item : String) : List String :=
  if contains acc item then acc else acc ++ [item]

/-- Keeps the first occurrence of every string. -/
def removeDuplicateStrings (slice : List String) : List String :=
  slice.foldl appendUnique []

/-- The helper `addUniqueEmailToCommitAuthorEmailsSlice` (lines 606-612). -/
def addUniqueEmailToCommitAuthorEmailsSlice (slice : List String) (email : String) :
    List String :=
  if contains slice email then slice else slice ++ [email]

/-- The helper `commitContainsExistingDate` (lines 585-592), reduced to
the index it reports: the first bucket whose `Date` equals the key
(`none` for the reported `(false, -1)`). -/
def findDateIdx : List OptimizedCommitForExport → String → Option Nat
  | [], _ => none
  | b :: bs, v => if b.Date = v then some 0 else (findDateIdx bs v).map (· + 1)

/-- In-place update of the bucket slice at an index. -/
def updateAt : List OptimizedCommitForExport → Nat →
    (OptimizedCommitForExport → OptimizedCommitForExport) →
    List OptimizedCommitForExport
  | [], _, _ => []
  | x :: xs, 0, f => f x :: xs
  | x :: xs, n + 1, f => x :: updateAt xs n f

/-- Lines 652-661: the languages of the commit's changed files, first
occurrence kept, empty tags skipped. -/
def commitLanguagesOf (c : Commit) : List String :=
  c.ChangedFiles.foldl
    (fun acc f => if ¬ (contains acc f.Language = true) ∧ f.Language ≠ "" then
        acc ++ [f.Language] else acc) []

/-- Lines 655-661: `commitInsertions` accumulated over every changed file. -/
def commitInsertionsOf (c : Commit) : Int :=
  c.ChangedFiles.foldl (fun acc f => acc + f.Insertions) 0

/-- Lines 655-661: `commitDeletions` accumulated over every changed file. -/
def commitDeletionsOf (c : Commit) : Int :=
  c.ChangedFiles.foldl (fun acc f => acc + f.Deletions) 0

/-- Lines 666-676: merging one language's identifier list of the
incoming commit into the bucket's map.  If the key exists, each item
is appended only when not already present (the membership test is
against the list as it grows); otherwise the deduplicated incoming
list is inserted. -/
def mergeOneLib (m : Libs) (key : String) (items : List String) : Libs :=
  match lookupLibs m key with
  | some cur => updateLibs m key (items.foldl appendUnique cur)
  | none => m ++ [(key, removeDuplicateStrings items)]

/-- Lines 666-676: the loop over the incoming commit's library map. -/
def mergeLibraries (m : Libs) (incoming : Libs) : Libs :=
  incoming.foldl (fun acc kv => mergeOneLib acc kv.1 kv.2) m

/-- Lines 684-687: the library map of a freshly created bucket — every
incoming list deduplicated (Go map assignment per key). -/
def librariesWithoutDuplicity (incoming : Libs) : Libs :=
  incoming.foldl (fun acc kv => mapSet acc kv.1 (removeDuplicateStrings kv.2)) []

/-- Lines 663-681: the merge of an incoming commit into the existing
bucket at the found index.  Note that the bucket's `Languages` field
is NOT touched by this branch. -/
def mergeBucket (b : OptimizedCommitForExport) (c : Commit) :
    OptimizedCommitForExport :=
  { b with
    Libraries := mergeLibraries b.Libraries c.Libraries
    Commits := b.Commits + 1
    Deletions := b.Deletions + commitDeletionsOf c
    Insertions := b.Insertions + commitInsertionsOf c
    AuthorEmails := addUniqueEmailToCommitAuthorEmailsSlice b.AuthorEmails c.AuthorEmail }

/-- Lines 683-704: creation of a new bucket for a day key. -/
def newBucket (c : Commit) : OptimizedCommitForExport :=
  { AuthorEmails := [c.AuthorEmail]
    Date := dayKeyString c.Date
    Languages := commitLanguagesOf c
    Libraries := librariesWithoutDuplicity c.Libraries
    Insertions := commitInsertionsOf c
    Deletions := commitDeletionsOf c
    Commits := 1 }

/-- One iteration of the select loop for an enriched commit (lines
649-704). -/
def exportStep (ps : List OptimizedCommitForExport) (c : Commit) :
    List OptimizedCommitForExport :=
  match findDateIdx ps (dayKeyString c.Date) with
  | some index => updateAt ps index (fun b => mergeBucket b c)
  | none => ps ++ [newBucket c]

/-- The whole aggregation: folding the commits received on the
pipeline, in arrival order, into the bucket list. -/
def aggregateExport (cs : List Commit) : List OptimizedCommitForExport :=
  cs.foldl exportStep []

/-! ## Concrete fixtures used by counterexamples and witnesses -/

/-- An enriched commit of 2024-01-01 whose only file is Go. -/
def cGo : Commit :=
  { Hash := "h1", AuthorName := "Ann", AuthorEmail := "ann@x",
    Date := "2024-01-01 10:00:00 +0000",
    ChangedFiles := [⟨"a.go", 1, 2, "Go"⟩],
    Libraries := [("Go", ["fmt"])] }

/-- An enriched commit of the same day whose only file is Python. -/
def cPy : Commit :=
  { Hash := "h2", AuthorName := "Bob", AuthorEmail := "bob@x",
    Date := "2024-01-01 23:00:00 +0000",
    ChangedFiles := [⟨"b.py", 3, 4, "Python"⟩],
    Libraries := [("Python", ["os"])] }

/-- A trivial analysis environment (no detection, no content, no
analyzers). -/
def envT : WEnv :=
  { shouldUseFile := fun _ => false
    detectLanguageFromFile := fun _ _ => ""
    detectLanguageFromExtension := fun _ => ""
    getFileContent := fun _ _ => none
    getAnalyzer := fun _ => none
    SkipLibraries := true }

/-- A two-file commit fed to the analysis worker. -/
def cT : Commit :=
  { Hash := "h3", AuthorName := "Cal", AuthorEmail := "cal@x",
    Date := "2024-01-02 08:00:00 +0000",
    ChangedFiles := [⟨"a.go", 1, 0, ""⟩, ⟨"b.go", 2, 0, ""⟩],
    Libraries := [] }

/-- An analysis environment whose Go analyzer extracts the identifier
`a/../b` containing a non-leading relative-path marker. -/
def envC8 : WEnv :=
  { shouldUseFile := fun _ => false
    detectLanguageFromFile := fun _ _ => ""
    detectLanguageFromExtension := fun e => if e = "go" then "Go" else ""
    getFileContent := fun _ _ => some "content"
    getAnalyzer := fun lang => if lang = "Go" then some (fun _ => ["a/../b"]) else none
    SkipLibraries := false }

example : (aggregateExport [cGo, cPy]).map (fun b => b.Languages) = [["Go"]] := by
  decide
example : (aggregateExport [cPy, cGo]).map (fun b => b.Languages) = [["Python"]] := by
  decide
example : (libraryWorkerCommit envT (some 0) cT).length = 3 := by decide
example : (libraryWorkerCommit envT none cT).length = 1 := by decide
example : aggregateExport [cGo, cPy] =
    [{ AuthorEmails := ["ann@x", "bob@x"], Date := "2024-01-01 00:00:00 +0000 UTC",
       Languages := ["Go"], Libraries := [("Go", ["fmt"]), ("Python", ["os"])],
       Insertions := 4, Deletions := 6, Commits := 2 }] := by decide

/-! ## Lemmas about the string-set helpers -/

theorem contains_iff (l : List String) (v : String) : contains l v = true ↔ v ∈ l := by
  induction l with
  | nil => simp [contains]
  | cons x xs ih =>
    by_cases hx : x = v
    · subst hx; simp [contains]
    · simp [contains, hx, ih, Ne.symm hx]

theorem mem_appendUnique (acc : List String) (item x : String) :
    x ∈ appendUnique acc item ↔ x ∈ acc ∨ x = item := by
  unfold appendUnique
  by_cases h : contains acc item = true
  · have him : item ∈ acc := (contains_iff acc item).mp h
    simp only [h, if_true]
    constructor
    · exact fun hx => Or.inl hx
    · rintro (hx | rfl)
      · exact hx
      · exact him
  · simp only [h, if_false]
    simp

theorem nodup_appendUnique (acc : List String) (item : String) (h : acc.Nodup) :
    (appendUnique acc item).Nodup := by
  unfold appendUnique
  by_cases hc : contains acc item = true
  · simpa [hc] using h
  · have him : item ∉ acc := fun hm => hc ((contains_iff acc item).mpr hm)
    simp only [hc, if_false]
    simpa [List.nodup_append] using ⟨h, him⟩

theorem mem_foldl_appendUnique (items : List String) :
    ∀ (acc : List String) (x : String),
      x ∈ items.foldl appendUnique acc ↔ x ∈ acc ∨ x ∈ items := by
  induction items with
  | nil => simp
  | cons i is ih =>
    intro acc x
    simp only [List.foldl_cons, ih, mem_appendUnique, List.mem_cons]
    tauto

theorem nodup_foldl_appendUnique (items : List String) :
    ∀ (acc : List String), acc.Nodup → (items.foldl appendUnique acc).Nodup := by
  induction items with
  | nil => exact fun _ h => h
  | cons i is ih =>
    intro acc h
    exact ih _ (nodup_appendUnique acc i h)

theorem mem_removeDuplicateStrings (l : List String) (x : String) :
    x ∈ removeDuplicateStrings l ↔ x ∈ l := by
  simp [removeDuplicateStrings, mem_foldl_appendUnique]

theorem nodup_removeDuplicateStrings (l : List String) :
    (removeDuplicateStrings l).Nodup :=
  nodup_foldl_appendUnique l [] List.nodup_nil

theorem mem_addUniqueEmail (slice : List String) (email x : String) :
    x ∈ addUniqueEmailToCommitAuthorEmailsSlice slice email ↔
      x ∈ slice ∨ x = email := by
  unfold addUniqueEmailToCommitAuthorEmailsSlice
  by_cases h : contains slice email = true
  · have him : email ∈ slice := (contains_iff slice email).mp h
    simp only [h, if_true]
    constructor
    · exact fun hx => Or.inl hx
    · rintro (hx | rfl)
      · exact hx
      · exact him
  · simp only [h, if_false]
    simp

/-! ## Lemmas about the library maps -/

/-- The identifier list stored for a language (empty when absent);
what a reader of the exported bucket observes for a language. -/
def libsOf (m : Libs) (k : String) : List String := (lookupLibs m k).getD []

theorem lookupLibs_updateLibs_self (m : Libs) (k : String) (nv : List String) :
    ∀ cur, lookupLibs m k = some cur →
      lookupLibs (updateLibs m k nv) k = some nv := by
  induction m with
  | nil => intro cur h; simp [lookupLibs] at h
  | cons kv rest ih =>
    intro cur h
    by_cases hk : kv.1 = k
    · simp [updateLibs, hk, lookupLibs]
    · simp only [lookupLibs, hk, if_false] at h
      simpa [updateLibs, hk, lookupLibs] using ih cur h

theorem lookupLibs_updateLibs_ne (m : Libs) (k k' : String) (nv : List String)
    (h : k' ≠ k) : lookupLibs (updateLibs m k nv) k' = lookupLibs m k' := by
  induction m with
  | nil => simp [updateLibs, lookupLibs]
  | cons kv rest ih =>
    by_cases hk : kv.1 = k
    · simp [updateLibs, hk, lookupLibs, Ne.symm h]
    · simp [updateLibs, hk, lookupLibs, ih]

theorem lookupLibs_append_self (m : Libs) (k : String) (v : List String)
    (h : lookupLibs m k = none) :
    lookupLibs (m ++ [(k, v)]) k = some v := by
  induction m with
  | nil => simp [lookupLibs]
  | cons kv rest ih =>
    by_cases hk : kv.1 = k
    · simp [lookupLibs, hk] at h
    · simp only [lookupLibs, hk, if_false] at h
      simpa [lookupLibs, hk] using ih h

theorem lookupLibs_append_ne (m : Libs) (k k' : String) (v : List String)
    (h : k' ≠ k) : lookupLibs (m ++ [(k, v)]) k' = lookupLibs m k' := by
  induction m with
  | nil => simp [lookupLibs, Ne.symm h]
  | cons kv rest ih =>
    by_cases hk : kv.1 = k'
    · simp [lookupLibs, hk]
    · simp [lookupLibs, hk, ih]

theorem libsOf_mergeOneLib (m : Libs) (k : String) (items : List String)
    (k' : String) (x : String) :
    x ∈ libsOf (mergeOneLib m k items) k' ↔
      x ∈ libsOf m k' ∨ (k' = k ∧ x ∈ items) := by
  unfold mergeOneLib
  cases hm : lookupLibs m k with
  | some cur =>
    by_cases hk : k' = k
    · subst hk
      rw [libsOf, lookupLibs_updateLibs_self m k' _ cur hm]
      simp [libsOf, hm, mem_foldl_appendUnique]
    · rw [libsOf, lookupLibs_updateLibs_ne m k k' _ hk]
      simp [libsOf, hk]
  | none =>
    by_cases hk : k' = k
    · subst hk
      rw [libsOf, lookupLibs_append_self m k' _ hm]
      simp [libsOf, hm, mem_removeDuplicateStrings]
    · rw [libsOf, lookupLibs_append_ne m k k' _ hk]
      simp [libsOf, hk]

theorem libsOf_mergeLibraries (incoming : Libs) :
    ∀ (m : Libs) (k : String) (x : String),
      x ∈ libsOf (mergeLibraries m incoming) k ↔
        x ∈ libsOf m k ∨ ∃ kv ∈ incoming, kv.1 = k ∧ x ∈ kv.2 := by
  induction incoming with
  | nil => simp [mergeLibraries]
  | cons kv rest ih =>
    intro m k x
    have step : mergeLibraries m (kv :: rest) = mergeLibraries (mergeOneLib m kv.1 kv.2) rest := by
      simp [mergeLibraries]
    rw [step, ih, libsOf_mergeOneLib]
    constructor
    · rintro ((hm | ⟨hk, hx⟩) | ⟨kv', hkv', hk, hx⟩)
      · exact Or.inl hm
      · exact Or.inr ⟨kv, List.mem_cons_self kv rest, hk.symm, hx⟩
      · exact Or.inr ⟨kv', List.mem_cons_of_mem kv hkv', hk, hx⟩
    · rintro (hm | ⟨kv', hkv', hk, hx⟩)
      · exact Or.inl (Or.inl hm)
      · rcases List.mem_cons.mp hkv' with rfl | hkv'
        · exact Or.inl (Or.inr ⟨hk.symm, hx⟩)
        · exact Or.inr ⟨kv', hkv', hk, hx⟩

/-- Nodup of every per-language list a bucket map stores. -/
def nodupLibs (m : Libs) : Prop := ∀ k : String, (libsOf m k).Nodup

theorem nodupLibs_mergeOneLib (m : Libs) (k : String) (items : List String)
    (h : nodupLibs m) : nodupLibs (mergeOneLib m k items) := by
  intro k'
  unfold mergeOneLib
  cases hm : lookupLibs m k with
  | some cur =>
    by_cases hk : k' = k
    · subst hk
      rw [libsOf, lookupLibs_updateLibs_self m k' _ cur hm]
      have hcur : cur.Nodup := by
        have := h k'
        rwa [libsOf, hm] at this
      exact nodup_foldl_appendUnique items cur hcur
    · rw [libsOf, lookupLibs_updateLibs_ne m k k' _ hk]
      exact h k'
  | none =>
    by_cases hk : k' = k
    · subst hk
      rw [libsOf, lookupLibs_append_self m k' _ hm]
      exact nodup_removeDuplicateStrings items
    · rw [libsOf, lookupLibs_append_ne m k k' _ hk]
      exact h k'

theorem nodupLibs_mergeLibraries (incoming : Libs) :
    ∀ (m : Libs), nodupLibs m → nodupLibs (mergeLibraries m incoming) := by
  induction incoming with
  | nil => exact fun m h => h
  | cons kv rest ih =>
    intro m h
    have step : mergeLibraries m (kv :: rest) = mergeLibraries (mergeOneLib m kv.1 kv.2) rest := by
      simp [mergeLibraries]
    rw [step]
    exact ih _ (nodupLibs_mergeOneLib m kv.1 kv.2 h)

theorem libsOf_mapSet (m : Libs) (k : String) (v : List String) (k' : String) :
    libsOf (mapSet m k v) k' = if k' = k then v else libsOf m k' := by
  unfold mapSet
  cases hm : lookupLibs m k with
  | some cur =>
    by_cases hk : k' = k
    · subst hk
      rw [libsOf, lookupLibs_updateLibs_self m k' _ cur hm]
      simp
    · rw [libsOf, lookupLibs_updateLibs_ne m k k' _ hk]
      simp [libsOf, hk]
  | none =>
    by_cases hk : k' = k
    · subst hk
      rw [libsOf, lookupLibs_append_self m k' _ hm]
      simp
    · rw [libsOf, lookupLibs_append_ne m k k' _ hk]
      simp [libsOf, hk]

theorem nodupLibs_librariesWithoutDuplicityAux (incoming : Libs) :
    ∀ (m : Libs), nodupLibs m →
      nodupLibs (incoming.foldl (fun acc kv => mapSet acc kv.1 (removeDuplicateStrings kv.2)) m) := by
  induction incoming with
  | nil => exact fun m h => h
  | cons kv rest ih =>
    intro m h
    simp only [List.foldl_cons]
    refine ih _ ?_
    intro k'
    rw [libsOf_mapSet]
    by_cases hk : k' = kv.1
    · simp only [hk, if_true]
      exact nodup_removeDuplicateStrings kv.2
    · simp only [hk, if_false]
      exact h k'

theorem nodupLibs_librariesWithoutDuplicity (incoming : Libs) :
    nodupLibs (librariesWithoutDuplicity incoming) := by
  refine nodupLibs_librariesWithoutDuplicityAux incoming [] ?_
  intro k
  simp [libsOf, lookupLibs]

theorem libsOf_librariesWithoutDuplicityAux (incoming : Libs)
    (hnd : (incoming.map Prod.fst).Nodup) :
    ∀ (m : Libs) (k : String) (x : String),
      x ∈ libsOf (incoming.foldl (fun acc kv => mapSet acc kv.1 (removeDuplicateStrings kv.2)) m) k ↔
        (∃ kv ∈ incoming, kv.1 = k ∧ x ∈ kv.2) ∨
          (k ∉ incoming.map Prod.fst ∧ x ∈ libsOf m k) := by
  induction incoming with
  | nil => simp
  | cons kv rest ih =>
    intro m k x
    have hnd' : (rest.map Prod.fst).Nodup := (List.nodup_cons.mp hnd).2
    have hkv : kv.1 ∉ rest.map Prod.fst := (List.nodup_cons.mp hnd).1
    simp only [List.foldl_cons]
    rw [ih hnd']
    constructor
    · rintro (⟨kv', hkv', hk, hx⟩ | ⟨hk, hx⟩)
      · exact Or.inl ⟨kv', List.mem_cons_of_mem kv hkv', hk, hx⟩
      · rw [libsOf_mapSet] at hx
        by_cases hkk : k = kv.1
        · subst hkk
          simp only [if_true] at hx
          exact Or.inl ⟨kv, List.mem_cons_self kv rest, rfl,
            (mem_removeDuplicateStrings kv.2 x).mp hx⟩
        · simp only [hkk, if_false] at hx
          refine Or.inr ⟨?_, hx⟩
          simpa [hkk] using hk
    · rintro (⟨kv', hkv', hk, hx⟩ | ⟨hk, hx⟩)
      · rcases List.mem_cons.mp hkv' with heq | hkv2
        · subst heq
          subst hk
          refine Or.inr ⟨?_, ?_⟩
          · simpa using hkv
          · rw [libsOf_mapSet]
            simp [mem_removeDuplicateStrings, hx]
        · exact Or.inl ⟨kv', hkv2, hk, hx⟩
      · have hk1 : k ≠ kv.1 := by
          intro hkk
          exact hk (by simp [hkk])
        have hk2 : k ∉ rest.map Prod.fst := by
          intro hkk
          exact hk (by simp [hkk])
        refine Or.inr ⟨hk2, ?_⟩
        rw [libsOf_mapSet]
        simp [hk1, hx]

theorem libsOf_librariesWithoutDuplicity (incoming : Libs)
    (hnd : (incoming.map Prod.fst).Nodup) (k : String) (x : String) :
    x ∈ libsOf (librariesWithoutDuplicity incoming) k ↔
      ∃ kv ∈ incoming, kv.1 = k ∧ x ∈ kv.2 := by
  rw [librariesWithoutDuplicity, libsOf_librariesWithoutDuplicityAux incoming hnd]
  simp [libsOf, lookupLibs]

/-! ## Lemmas about the bucket merge and the aggregation fold -/

theorem mergeBucket_Date (b : OptimizedCommitForExport) (c : Commit) :
    (mergeBucket b c).Date = b.Date := rfl

theorem mergeBucket_Languages (b : OptimizedCommitForExport) (c : Commit) :
    (mergeBucket b c).Languages = b.Languages := rfl

theorem mfold_Date (L : List Commit) :
    ∀ b : OptimizedCommitForExport, (L.foldl mergeBucket b).Date = b.Date := by
  induction L with
  | nil => intro b; rfl
  | cons c cs ih => intro b; simpa using ih (mergeBucket b c)

theorem mfold_Languages (L : List Commit) :
    ∀ b : OptimizedCommitForExport, (L.foldl mergeBucket b).Languages = b.Languages := by
  induction L with
  | nil => intro b; rfl
  | cons c cs ih => intro b; simpa using ih (mergeBucket b c)

theorem mfold_Commits (L : List Commit) :
    ∀ b : OptimizedCommitForExport,
      (L.foldl mergeBucket b).Commits = b.Commits + L.length := by
  induction L with
  | nil => intro b; simp
  | cons c cs ih =>
    intro b
    have : (mergeBucket b c).Commits = b.Commits + 1 := rfl
    simp only [List.foldl_cons, ih, this, List.length_cons]
    push_cast
    ring

theorem mfold_Insertions (L : List Commit) :
    ∀ b : OptimizedCommitForExport,
      (L.foldl mergeBucket b).Insertions =
        b.Insertions + (L.map commitInsertionsOf).sum := by
  induction L with
  | nil => intro b; simp
  | cons c cs ih =>
    intro b
    have : (mergeBucket b c).Insertions = b.Insertions + commitInsertionsOf c := rfl
    simp only [List.foldl_cons, ih, this, List.map_cons, List.sum_cons]
    ring

theorem mfold_Deletions (L : List Commit) :
    ∀ b : OptimizedCommitForExport,
      (L.foldl mergeBucket b).Deletions =
        b.Deletions + (L.map commitDeletionsOf).sum := by
  induction L with
  | nil => intro b; simp
  | cons c cs ih =>
    intro b
    have : (mergeBucket b c).Deletions = b.Deletions + commitDeletionsOf c := rfl
    simp only [List.foldl_cons, ih, this, List.map_cons, List.sum_cons]
    ring

theorem mfold_emails (L : List Commit) :
    ∀ (b : OptimizedCommitForExport) (x : String),
      x ∈ (L.foldl mergeBucket b).AuthorEmails ↔
        x ∈ b.AuthorEmails ∨ x ∈ L.map (fun c => c.AuthorEmail) := by
  induction L with
  | nil => intro b x; simp
  | cons c cs ih =>
    intro b x
    have : (mergeBucket b c).AuthorEmails =
        addUniqueEmailToCommitAuthorEmailsSlice b.AuthorEmails c.AuthorEmail := rfl
    simp only [List.foldl_cons, ih, this, mem_addUniqueEmail, List.map_cons,
      List.mem_cons]
    tauto

theorem mfold_libs (L : List Commit) :
    ∀ (b : OptimizedCommitForExport) (k x : String),
      x ∈ libsOf (L.foldl mergeBucket b).Libraries k ↔
        x ∈ libsOf b.Libraries k ∨ ∃ c ∈ L, ∃ kv ∈ c.Libraries, kv.1 = k ∧ x ∈ kv.2 := by
  induction L with
  | nil => intro b k x; simp
  | cons c cs ih =>
    intro b k x
    have : (mergeBucket b c).Libraries = mergeLibraries b.Libraries c.Libraries := rfl
    simp only [List.foldl_cons, ih, this, libsOf_mergeLibraries, List.mem_cons]
    constructor
    · rintro ((hm | ⟨kv, hkv, hk, hx⟩) | ⟨c', hc', hrest⟩)
      · exact Or.inl hm
      · exact Or.inr ⟨c, Or.inl rfl, kv, hkv, hk, hx⟩
      · exact Or.inr ⟨c', Or.inr hc', hrest⟩
    · rintro (hm | ⟨c', hc' | hc', hrest⟩)
      · exact Or.inl (Or.inl hm)
      · subst hc'
        exact Or.inl (Or.inr hrest)
      · exact Or.inr ⟨c', hc', hrest⟩

theorem nodupLibs_mfold (L : List Commit) :
    ∀ b : OptimizedCommitForExport, nodupLibs b.Libraries →
      nodupLibs (L.foldl mergeBucket b).Libraries := by
  induction L with
  | nil => exact fun b h => h
  | cons c cs ih =>
    intro b h
    simp only [List.foldl_cons]
    exact ih _ (nodupLibs_mergeLibraries c.Libraries b.Libraries h)

theorem exportStep_nil (c : Commit) : exportStep [] c = [newBucket c] := rfl

theorem exportStep_single_hit (b : OptimizedCommitForExport) (c : Commit)
    (h : b.Date = dayKeyString c.Date) : exportStep [b] c = [mergeBucket b c] := by
  simp [exportStep, findDateIdx, h, updateAt]

theorem foldl_exportStep_single (L : List Commit) :
    ∀ b : OptimizedCommitForExport, (∀ c ∈ L, dayKeyString c.Date = b.Date) →
      L.foldl exportStep [b] = [L.foldl mergeBucket b] := by
  induction L with
  | nil => intro b _; rfl
  | cons c cs ih =>
    intro b hk
    have hb : b.Date = dayKeyString c.Date := (hk c (List.mem_cons_self c cs)).symm
    simp only [List.foldl_cons, exportStep_single_hit b c hb]
    refine ih (mergeBucket b c) ?_
    intro c' hc'
    rw [mergeBucket_Date]
    exact hk c' (List.mem_cons_of_mem c hc')

/-- Aggregating a non-empty list of commits that all share one day key
produces exactly one bucket, characterised field by field in terms of
the commit list. -/
theorem aggregate_single_key (c : Commit) (rest : List Commit)
    (hk : ∀ c' ∈ (c :: rest), dayKeyString c'.Date = dayKeyString c.Date) :
    aggregateExport (c :: rest) = [rest.foldl mergeBucket (newBucket c)] := by
  have hseed : (newBucket c).Date = dayKeyString c.Date := rfl
  rw [aggregateExport, List.foldl_cons, exportStep_nil]
  refine foldl_exportStep_single rest (newBucket c) ?_
  intro c' hc'
  rw [hseed]
  exact hk c' (List.mem_cons_of_mem c hc')

/-- Full field-by-field characterisation of the single bucket produced
by a non-empty same-day commit list: every field except `Languages` is
determined by the commit list alone, independent of its order. -/
theorem aggregate_single_key_fields (c : Commit) (rest : List Commit)
    (hk : ∀ c' ∈ (c :: rest), dayKeyString c'.Date = dayKeyString c.Date)
    (hkeys : ∀ c' ∈ (c :: rest), (c'.Libraries.map Prod.fst).Nodup) :
    ∃ b, aggregateExport (c :: rest) = [b] ∧
      b.Date = dayKeyString c.Date ∧
      b.Languages = commitLanguagesOf c ∧
      b.Commits = 1 + (rest.length : Int) ∧
      b.Insertions = ((c :: rest).map commitInsertionsOf).sum ∧
      b.Deletions = ((c :: rest).map commitDeletionsOf).sum ∧
      (∀ x, x ∈ b.AuthorEmails ↔ x ∈ (c :: rest).map (fun c' => c'.AuthorEmail)) ∧
      (∀ k x, x ∈ libsOf b.Libraries k ↔
        ∃ c' ∈ (c :: rest), ∃ kv ∈ c'.Libraries, kv.1 = k ∧ x ∈ kv.2) := by
  refine ⟨rest.foldl mergeBucket (newBucket c), aggregate_single_key c rest hk,
    ?_, ?_, ?_, ?_, ?_, ?_, ?_⟩
  · rw [mfold_Date]; rfl
  · rw [mfold_Languages]; rfl
  · rw [mfold_Commits]; rfl
  · rw [mfold_Insertions]
    have h1 : (newBucket c).Insertions = commitInsertionsOf c := rfl
    simp [h1]
  · rw [mfold_Deletions]
    have h1 : (newBucket c).Deletions = commitDeletionsOf c := rfl
    simp [h1]
  · intro x
    rw [mfold_emails]
    have h1 : (newBucket c).AuthorEmails = [c.AuthorEmail] := rfl
    simp [h1]
  · intro k x
    rw [mfold_libs]
    have h1 : (newBucket c).Libraries = librariesWithoutDuplicity c.Libraries := rfl
    rw [h1, libsOf_librariesWithoutDuplicity c.Libraries
      (hkeys c (List.mem_cons_self c rest))]
    constructor
    · rintro (⟨kv, hkv, hrest⟩ | ⟨c', hc', hrest⟩)
      · exact ⟨c, List.mem_cons_self c rest, kv, hkv, hrest⟩
      · exact ⟨c', List.mem_cons_of_mem c hc', hrest⟩
    · rintro ⟨c', hc', hrest⟩
      rcases List.mem_cons.mp hc' with heq | hc'
      · subst heq
        exact Or.inl hrest
      · exact Or.inr ⟨c', hc', hrest⟩

theorem mem_updateAt (ps : List OptimizedCommitForExport) :
    ∀ (i : Nat) (f : OptimizedCommitForExport → OptimizedCommitForExport)
      (b : OptimizedCommitForExport), b ∈ updateAt ps i f →
        b ∈ ps ∨ ∃ a ∈ ps, b = f a := by
  induction ps with
  | nil => intro i f b h; simp [updateAt] at h
  | cons p ps ih =>
    intro i f b h
    cases i with
    | zero =>
      rcases List.mem_cons.mp h with heq | hm
      · exact Or.inr ⟨p, List.mem_cons_self p ps, heq⟩
      · exact Or.inl (List.mem_cons_of_mem p hm)
    | succ n =>
      rcases List.mem_cons.mp h with heq | hm
      · subst heq
        exact Or.inl (List.mem_cons_self b ps)
      · rcases ih n f b hm with hm | ⟨a, ha, heq⟩
        · exact Or.inl (List.mem_cons_of_mem p hm)
        · exact Or.inr ⟨a, List.mem_cons_of_mem p ha, heq⟩

theorem nodupLibs_newBucket (c : Commit) : nodupLibs (newBucket c).Libraries :=
  nodupLibs_librariesWithoutDuplicity c.Libraries

theorem nodupLibs_mergeBucket (b : OptimizedCommitForExport) (c : Commit)
    (h : nodupLibs b.Libraries) : nodupLibs (mergeBucket b c).Libraries :=
  nodupLibs_mergeLibraries c.Libraries b.Libraries h

/-- The aggregation loop maintains deduplication of every bucket's
per-language library lists, from any bucket state that has it. -/
theorem agg_nodup_invariant (L : List Commit) :
    ∀ ps : List OptimizedCommitForExport,
      (∀ b ∈ ps, nodupLibs b.Libraries) →
      ∀ b ∈ L.foldl exportStep ps, nodupLibs b.Libraries := by
  induction L with
  | nil => exact fun ps h => h
  | cons c cs ih =>
    intro ps h
    simp only [List.foldl_cons]
    refine ih (exportStep ps c) ?_
    intro b hb
    unfold exportStep at hb
    cases hidx : findDateIdx ps (dayKeyString c.Date) with
    | some i =>
      rw [hidx] at hb
      rcases mem_updateAt ps i _ b hb with hm | ⟨a, ha, heq⟩
      · exact h b hm
      · subst heq
        exact nodupLibs_mergeBucket a c (h a ha)
    | none =>
      rw [hidx] at hb
      rcases List.mem_append.mp hb with hm | hm
      · exact h b hm
      · rcases List.mem_singleton.mp hm with rfl
        exact nodupLibs_newBucket c

/-! ## Lemmas about the analysis worker -/

/-- The fields of a changed file the analysis loop never writes. -/
def projCF (f : ChangedFile) : String × Int × Int := (f.Path, f.Insertions, f.Deletions)

theorem analyzeFileWithLang_proj (env : WEnv) (hash : String) (f : ChangedFile)
    (libs : Libs) (lang : String) (co : Option String) :
    projCF (analyzeFileWithLang env hash f libs lang co).1 = projCF f := by
  unfold analyzeFileWithLang
  split
  · rfl
  · split
    · rfl
    · split
      · rfl
      · split
        · rfl
        · rfl

theorem analyzeFile_proj (env : WEnv) (hash : String) (f : ChangedFile)
    (libs : Libs) : projCF (analyzeFile env hash f libs).1 = projCF f := by
  unfold analyzeFile
  by_cases h1 : filepathExt f.Path = ""
  · simp [h1]
  · simp only [h1, if_false]
    by_cases h2 : env.shouldUseFile (dropChars 1 (filepathExt f.Path))
    · simp only [h2, if_true]
      cases h3 : env.getFileContent hash f.Path with
      | none => rfl
      | some contents => exact analyzeFileWithLang_proj env hash f libs _ _
    · simp only [h2, Bool.false_eq_true, if_false]
      exact analyzeFileWithLang_proj env hash f libs _ _

theorem runFiles_proj (env : WEnv) (hash : String) (base : Commit)
    (dl : Option Nat) (rem : List ChangedFile) :
    ∀ (n : Nat) (done : List ChangedFile) (libs : Libs),
      ((runFiles env hash base dl n rem done libs).2.1).map projCF =
        done.map projCF ++ rem.map projCF := by
  induction rem with
  | nil => intro n done libs; simp [runFiles]
  | cons f rest ih =>
    intro n done libs
    by_cases hd : ctxDone dl n
    · simp [runFiles, hd, ih]
    · simp [runFiles, hd, ih, analyzeFile_proj]

theorem runFiles_none_noemit (env : WEnv) (hash : String) (base : Commit)
    (rem : List ChangedFile) :
    ∀ (n : Nat) (done : List ChangedFile) (libs : Libs),
      (runFiles env hash base none n rem done libs).1 = [] := by
  induction rem with
  | nil => intro n done libs; rfl
  | cons f rest ih =>
    intro n done libs
    have hd : ctxDone none n = false := rfl
    simp only [runFiles, hd, Bool.false_eq_true, if_false]
    exact ih (n + 1) (done ++ [(analyzeFile env hash f libs).1]) (analyzeFile env hash f libs).2

theorem commitInsertions_foldl (l : List ChangedFile) :
    ∀ a : Int, l.foldl (fun acc f => acc + f.Insertions) a =
      a + (l.map (fun f => f.Insertions)).sum := by
  induction l with
  | nil => intro a; simp
  | cons f rest ih =>
    intro a
    simp only [List.foldl_cons, ih, List.map_cons, List.sum_cons]
    ring

theorem commitDeletions_foldl (l : List ChangedFile) :
    ∀ a : Int, l.foldl (fun acc f => acc + f.Deletions) a =
      a + (l.map (fun f => f.Deletions)).sum := by
  induction l with
  | nil => intro a; simp
  | cons f rest ih =>
    intro a
    simp only [List.foldl_cons, ih, List.map_cons, List.sum_cons]
    ring

/-! ## Lemmas about the date parsing and the day key -/

theorem parseFixedDate_ranges (s : String) (t : GoTime)
    (h : parseFixedDate s = some t) : t.hour ≤ 23 ∧ t.minute ≤ 59 := by
  unfold parseFixedDate at h
  split at h
  · split at h
    · split at h
      · rename_i hrange
        split at h
        · injection h with h
          subst h
          exact ⟨hrange.2.2.2.2.1, hrange.2.2.2.2.2.1⟩
        · injection h with h
          subst h
          exact ⟨hrange.2.2.2.2.1, hrange.2.2.2.2.2.1⟩
      · exact absurd h (by simp)
    · exact absurd h (by simp)
  · exact absurd h (by simp)

theorem getStartOfDay_some (s : String) (t : GoTime)
    (h : parseFixedDate s = some t) :
    getStartOfDayFromStringDate s = (t.year, t.month, t.day) := by
  unfold getStartOfDayFromStringDate
  rw [h]

theorem getStartOfDay_none (s : String) (h : parseFixedDate s = none) :
    getStartOfDayFromStringDate s = (1, 1, 1) := by
  unfold getStartOfDayFromStringDate
  rw [h]

theorem ediv_day_helper (e r : Int) (h0 : 0 ≤ r) (h1 : r < 1440) :
    (e * 1440 + r).ediv 1440 = e := by
  have hcomm : e * 1440 + r = r + 1440 * e := by ring
  rw [hcomm]
  have h2 : (r + 1440 * e).ediv 1440 = r / 1440 + e :=
    Int.add_mul_ediv_left r e (by norm_num)
  rw [h2, Int.ediv_eq_zero_of_lt h0 h1]
  simp

/-- When the recorded UTC offset is zero, the day written in the date
string IS the UTC day of the instant. -/
theorem specUtcDayNumber_zero_offset (t : GoTime) (hh : t.hour ≤ 23)
    (hm : t.minute ≤ 59) (hoff : t.offsetMin = 0) :
    specUtcDayNumber t = epochDays t.year t.month t.day := by
  unfold specUtcDayNumber
  rw [hoff]
  have h0 : (0 : Int) ≤ ((t.hour * 60 + t.minute : Nat) : Int) := by positivity
  have h1 : ((t.hour * 60 + t.minute : Nat) : Int) < 1440 := by
    have : t.hour * 60 + t.minute ≤ 1439 := by omega
    omega
  calc (epochDays t.year t.month t.day * 1440 + ((t.hour * 60 + t.minute : Nat) : Int)
          - 0).ediv 1440
      = (epochDays t.year t.month t.day * 1440
          + ((t.hour * 60 + t.minute : Nat) : Int)).ediv 1440 := by ring_nf
    _ = epochDays t.year t.month t.day := ediv_day_helper _ _ h0 h1

/-! ## Lemmas about the harvest parsing loop -/

/-- A numstat row with an unconvertible numeric field: non-blank,
not a commit header, and one of the two stat fields fails `Atoi`
(after the dash-means-zero normalisation). -/
def badStatField (m : String) : Prop :=
  m ≠ "" ∧ isBeginLine m = false ∧
    (goAtoi (if getS (goFields m) 0 = "-" then "0" else getS (goFields m) 0) = none ∨
     goAtoi (if getS (goFields m) 1 = "-" then "0" else getS (goFields m) 1) = none)

instance (m : String) : Decidable (badStatField m) := by
  unfold badStatField
  infer_instance

/-- Any log batch containing a bad stat row makes the worker's parse
return an error, whatever parser state it is reached in. -/
theorem parseLogLines_error_of_bad (reformat : String → Option String)
    (lines : List String) :
    ∀ (cur : Option Commit) (acc : List Commit),
      (∃ m ∈ lines, badStatField m) →
      ∃ e, parseLogLines reformat lines cur acc = .error e := by
  induction lines with
  | nil => intro cur acc hex; simp at hex
  | cons m rest ih =>
    intro cur acc hex
    by_cases hm0 : m = ""
    · have hstep : parseLogLines reformat (m :: rest) cur acc =
          parseLogLines reformat rest cur acc := by
        simp [parseLogLines, hm0]
      rw [hstep]
      refine ih cur acc ?_
      rcases hex with ⟨m', hm', hbad⟩
      rcases List.mem_cons.mp hm' with heq | hm'
      · subst heq; exact absurd rfl (hm0 ▸ hbad.1)
      · exact ⟨m', hm', hbad⟩
    · by_cases hm1 : isBeginLine m = true
      · have hstep : parseLogLines reformat (m :: rest) cur acc =
            parseLogLines reformat rest
              (some { Hash := getS (splitSep (dropChars 11 m)) 0,
                      AuthorName := getS (splitSep (dropChars 11 m)) 1,
                      AuthorEmail := getS (splitSep (dropChars 11 m)) 2,
                      Date := (reformat (getS (splitSep (dropChars 11 m)) 3)).getD "",
                      ChangedFiles := [] })
              (acc ++ (match cur with | some c => [c] | none => [])) := by
          simp [parseLogLines, hm0, hm1]
        rw [hstep]
        refine ih _ _ ?_
        rcases hex with ⟨m', hm', hbad⟩
        rcases List.mem_cons.mp hm' with heq | hm'
        · subst heq
          have hfalse : isBeginLine m' = false := hbad.2.1
          rw [hm1] at hfalse
          exact absurd hfalse (by simp)
        · exact ⟨m', hm', hbad⟩
      · have hm1' : isBeginLine m = false := by
          cases hv : isBeginLine m
          · rfl
          · exact absurd hv hm1
        cases h0 : goAtoi (if getS (goFields m) 0 = "-" then "0"
            else getS (goFields m) 0) with
        | none =>
          have hstep : parseLogLines reformat (m :: rest) cur acc =
              .error ("Cannot convert the following into integer: " ++
                (if getS (goFields m) 0 = "-" then "0" else getS (goFields m) 0)) := by
            simp [parseLogLines, hm0, hm1', h0]
          exact ⟨_, hstep⟩
        | some i =>
          cases h1 : goAtoi (if getS (goFields m) 1 = "-" then "0"
              else getS (goFields m) 1) with
          | none =>
            have hstep : parseLogLines reformat (m :: rest) cur acc =
                .error ("Cannot convert the following into integer: " ++
                  (if getS (goFields m) 1 = "-" then "0" else getS (goFields m) 1)) := by
              simp [parseLogLines, hm0, hm1', h0, h1]
            exact ⟨_, hstep⟩
          | some d =>
            have hrest : ∃ m' ∈ rest, badStatField m' := by
              rcases hex with ⟨m', hm', hbad⟩
              rcases List.mem_cons.mp hm' with heq | hm'
              · subst heq
                rcases hbad.2.2 with hb | hb
                · rw [h0] at hb; exact absurd hb (by simp)
                · rw [h1] at hb; exact absurd hb (by simp)
              · exact ⟨m', hm', hbad⟩
            by_cases hsk : goContains "=>" (getS (goFields m) 2) = true
            · have hstep : parseLogLines reformat (m :: rest) cur acc =
                  parseLogLines reformat rest cur acc := by
                simp [parseLogLines, hm0, hm1', h0, h1, hsk]
              rw [hstep]
              exact ih cur acc hrest
            · cases cur with
              | none =>
                have hstep : parseLogLines reformat (m :: rest) none acc =
                    .error "did not expect current commit to be null" := by
                  simp [parseLogLines, hm0, hm1', h0, h1, hsk]
                exact ⟨_, hstep⟩
              | some c =>
                have hstep : parseLogLines reformat (m :: rest) (some c) acc =
                    parseLogLines reformat rest
                      (some { c with ChangedFiles := c.ChangedFiles ++
                        [⟨getS (goFields m) 2, i, d, ""⟩] }) acc := by
                  simp [parseLogLines, hm0, hm1', h0, h1, hsk]
                rw [hstep]
                exact ih _ acc hrest

/-- A non-blank, non-header line reached before any commit header
(other than one skipped by the rename predicate) makes the worker's
parse return an error: either a stat-field conversion error or the
null-current-commit error. -/
theorem parseLogLines_error_before_header (reformat : String → Option String)
    (pre : List String) :
    ∀ (m : String) (rest : List String) (acc : List Commit),
      (∀ p ∈ pre, isBeginLine p = false) →
      m ≠ "" → isBeginLine m = false →
      ¬ ((goAtoi (if getS (goFields m) 0 = "-" then "0" else getS (goFields m) 0)).isSome ∧
         (goAtoi (if getS (goFields m) 1 = "-" then "0" else getS (goFields m) 1)).isSome ∧
         goContains "=>" (getS (goFields m) 2) = true) →
      ∃ e, parseLogLines reformat (pre ++ m :: rest) none acc = .error e := by
  induction pre with
  | nil =>
    intro m rest acc _ hne hnb hns
    rw [List.nil_append]
    cases h0 : goAtoi (if getS (goFields m) 0 = "-" then "0"
        else getS (goFields m) 0) with
    | none =>
      have hstep : parseLogLines reformat (m :: rest) none acc =
          .error ("Cannot convert the following into integer: " ++
            (if getS (goFields m) 0 = "-" then "0" else getS (goFields m) 0)) := by
        simp [parseLogLines, hne, hnb, h0]
      exact ⟨_, hstep⟩
    | some i =>
      cases h1 : goAtoi (if getS (goFields m) 1 = "-" then "0"
          else getS (goFields m) 1) with
      | none =>
        have hstep : parseLogLines reformat (m :: rest) none acc =
            .error ("Cannot convert the following into integer: " ++
              (if getS (goFields m) 1 = "-" then "0" else getS (goFields m) 1)) := by
          simp [parseLogLines, hne, hnb, h0, h1]
        exact ⟨_, hstep⟩
      | some d =>
        by_cases hsk : goContains "=>" (getS (goFields m) 2) = true
        · exact absurd ⟨by simp [h0], by simp [h1], hsk⟩ hns
        · have hstep : parseLogLines reformat (m :: rest) none acc =
              .error "did not expect current commit to be null" := by
            simp [parseLogLines, hne, hnb, h0, h1, hsk]
          exact ⟨_, hstep⟩
  | cons p ps ih =>
    intro m rest acc hpre hne hnb hns
    have hps : ∀ q ∈ ps, isBeginLine q = false :=
      fun q hq => hpre q (List.mem_cons_of_mem p hq)
    have happ : (p :: ps) ++ m :: rest = p :: (ps ++ m :: rest) := rfl
    rw [happ]
    by_cases hp0 : p = ""
    · have hstep : parseLogLines reformat (p :: (ps ++ m :: rest)) none acc =
          parseLogLines reformat (ps ++ m :: rest) none acc := by
        simp [parseLogLines, hp0]
      rw [hstep]
      exact ih m rest acc hps hne hnb hns
    · have hpb : isBeginLine p = false := hpre p (List.mem_cons_self p ps)
      cases h0 : goAtoi (if getS (goFields p) 0 = "-" then "0"
          else getS (goFields p) 0) with
      | none =>
        have hstep : parseLogLines reformat (p :: (ps ++ m :: rest)) none acc =
            .error ("Cannot convert the following into integer: " ++
              (if getS (goFields p) 0 = "-" then "0" else getS (goFields p) 0)) := by
          simp [parseLogLines, hp0, hpb, h0]
        exact ⟨_, hstep⟩
      | some i =>
        cases h1 : goAtoi (if getS (goFields p) 1 = "-" then "0"
            else getS (goFields p) 1) with
        | none =>
          have hstep : parseLogLines reformat (p :: (ps ++ m :: rest)) none acc =
              .error ("Cannot convert the following into integer: " ++
                (if getS (goFields p) 1 = "-" then "0" else getS (goFields p) 1)) := by
            simp [parseLogLines, hp0, hpb, h0, h1]
          exact ⟨_, hstep⟩
        | some d =>
          by_cases hsk : goContains "=>" (getS (goFields p) 2) = true
          · have hstep : parseLogLines reformat (p :: (ps ++ m :: rest)) none acc =
                parseLogLines reformat (ps ++ m :: rest) none acc := by
              simp [parseLogLines, hp0, hpb, h0, h1, hsk]
            rw [hstep]
            exact ih m rest acc hps hne hnb hns
          · have hstep : parseLogLines reformat (p :: (ps ++ m :: rest)) none acc =
                .error "did not expect current commit to be null" := by
              simp [parseLogLines, hp0, hpb, h0, h1, hsk]
            exact ⟨_, hstep⟩

/-- The harvest pipeline outcome is `.ok` whatever the worker outcomes
were. -/
theorem harvestOutcome_never_error (outcomes : List (Except String (List Commit))) :
    ∃ cs, harvestOutcome outcomes = .ok cs :=
  ⟨_, rfl⟩

/-- The rename-skip predicate `strings.Contains` applied with its
arguments reversed is true only when the examined field is one of the
four substrings of the marker itself. -/
theorem goContains_marker_cases (p : String) (h : goContains "=>" p = true) :
    p = "" ∨ p = "=" ∨ p = ">" ∨ p = "=>" := by
  obtain ⟨data⟩ := p
  rcases data with _ | ⟨c1, _ | ⟨c2, _ | ⟨c3, t⟩⟩⟩
  · exact Or.inl (by decide)
  · simp only [goContains, listContainsSub, isPre, String.toList] at h
    simp at h
    rcases h with h | h
    · subst h
      exact Or.inr (Or.inl (by decide))
    · subst h
      exact Or.inr (Or.inr (Or.inl (by decide)))
  · simp only [goContains, listContainsSub, isPre, String.toList] at h
    simp at h
    obtain ⟨h1, h2⟩ := h
    subst h1
    subst h2
    exact Or.inr (Or.inr (Or.inr (by decide)))
  · simp only [goContains, listContainsSub, isPre, String.toList] at h
    simp at h

/-! ## Lemmas about the identifier post-processing (worker side) -/

/-- Below the language dispatch (lines 536-562): either the library
map is untouched, or the analyzer registered for `lang` was applied to
the content retrieved for the file, and exactly its output — each
identifier with every relative-path marker occurrence removed — was
appended under `lang`.  The hypothesis records that any pre-fetched
content came from the same retrieval the lazy branch would use. -/
theorem analyzeFileWithLang_libs_shape (env : WEnv) (hash : String)
    (f : ChangedFile) (libs : Libs) (lang : String) (co : Option String)
    (hco : ∀ c, co = some c → env.getFileContent hash f.Path = some c) :
    (analyzeFileWithLang env hash f libs lang co).2 = libs ∨
      ∃ analyzer contents, env.getAnalyzer lang = some analyzer ∧
        env.getFileContent hash f.Path = some contents ∧
        (analyzeFileWithLang env hash f libs lang co).2 =
          addLibs libs lang ((analyzer contents).map stripDotDot) := by
  unfold analyzeFileWithLang
  by_cases hl : lang = ""
  · simp [hl]
  · simp only [hl, if_false]
    by_cases hs : env.SkipLibraries = true
    · simp [hs]
    · simp only [hs, Bool.false_eq_true, if_false]
      cases ha : env.getAnalyzer lang with
      | none => simp
      | some analyzer =>
        cases hc : (match co with
                    | some c => some c
                    | none => env.getFileContent hash f.Path) with
        | none => simp
        | some contents =>
          right
          refine ⟨analyzer, contents, rfl, ?_, by simp⟩
          cases co with
          | some c =>
            have hcc : some c = some contents := hc
            have hc2 : c = contents := by injection hcc
            rw [← hc2]
            exact hco c rfl
          | none => exact hc

/-! ## The verified claims -/

/-- C1 counterexample: merging a second same-day commit does NOT union
its languages into the bucket.  `cPy` carries language Python, yet
after it merges into the bucket created by `cGo` the bucket's language
list is still only Go, so the claimed language union fails. -/
theorem c1_merge_does_not_union_languages_cex :
    commitLanguagesOf cPy = ["Python"] ∧
    dayKeyString cPy.Date = dayKeyString cGo.Date ∧
    (aggregateExport [cGo, cPy]).map (fun b => b.Languages) = [["Go"]] ∧
    ("Python" ∈ (["Go"] : List String)) = False := by
  decide

/-- C1 (amended): on a day-key hit the export loop merges the commit
into the existing bucket: commit count + 1, insertions and deletions
accumulated, the author email appended only if absent, per-language
library lists unioned with deduplication — while the bucket's language
list stays exactly what it was (the incoming commit's languages are
dropped). -/
theorem c1_merge_characterisation (b : OptimizedCommitForExport) (c : Commit)
    (hdate : b.Date = dayKeyString c.Date) :
    exportStep [b] c = [mergeBucket b c] ∧
    (mergeBucket b c).Commits = b.Commits + 1 ∧
    (mergeBucket b c).Insertions = b.Insertions + commitInsertionsOf c ∧
    (mergeBucket b c).Deletions = b.Deletions + commitDeletionsOf c ∧
    (∀ x, x ∈ (mergeBucket b c).AuthorEmails ↔ x ∈ b.AuthorEmails ∨ x = c.AuthorEmail) ∧
    (mergeBucket b c).Languages = b.Languages ∧
    (∀ k x, x ∈ libsOf (mergeBucket b c).Libraries k ↔
       x ∈ libsOf b.Libraries k ∨ ∃ kv ∈ c.Libraries, kv.1 = k ∧ x ∈ kv.2) ∧
    (nodupLibs b.Libraries → nodupLibs (mergeBucket b c).Libraries) := by
  refine ⟨exportStep_single_hit b c hdate, rfl, rfl, rfl, ?_, rfl, ?_, ?_⟩
  · intro x
    exact mem_addUniqueEmail b.AuthorEmails c.AuthorEmail x
  · intro k x
    exact libsOf_mergeLibraries c.Libraries b.Libraries k x
  · exact fun h => nodupLibs_mergeBucket b c h

/-- C1 witness: a concrete merge of `cPy` into the bucket of `cGo`. -/
theorem c1_merge_characterisation_witness :
    (newBucket cGo).Date = dayKeyString cPy.Date ∧
    exportStep [newBucket cGo] cPy = [mergeBucket (newBucket cGo) cPy] :=
  ⟨by decide, (c1_merge_characterisation (newBucket cGo) cPy (by decide)).1⟩

/-- C2 counterexample: aggregation is not commutative.  The two
same-day commits `cGo` and `cPy` folded in the two orders give buckets
whose language lists differ (the merge drops the later commit's
languages), so the bucket contents are not identical. -/
theorem c2_not_commutative_cex :
    (aggregateExport [cGo, cPy]).map (fun b => b.Languages) = [["Go"]] ∧
    (aggregateExport [cPy, cGo]).map (fun b => b.Languages) = [["Python"]] ∧
    (aggregateExport [cGo, cPy] = aggregateExport [cPy, cGo]) = False := by
  decide

/-- C2 (amended): folding a fixed same-day-key commit list in any
permutation of arrival order yields a single bucket with the same day
key, commit count, insertion/deletion sums, author-email set and
per-language library sets; only the bucket's language list depends on
the order (it is the first-arriving commit's language list). -/
theorem c2_aggregation_perm_invariant (L L' : List Commit) (k : String)
    (hp : L.Perm L') (hne : L ≠ [])
    (hk : ∀ c' ∈ L, dayKeyString c'.Date = k)
    (hkeys : ∀ c' ∈ L, (c'.Libraries.map Prod.fst).Nodup) :
    ∃ b b', aggregateExport L = [b] ∧ aggregateExport L' = [b'] ∧
      b.Date = b'.Date ∧ b.Commits = b'.Commits ∧
      b.Insertions = b'.Insertions ∧ b.Deletions = b'.Deletions ∧
      (∀ x, x ∈ b.AuthorEmails ↔ x ∈ b'.AuthorEmails) ∧
      (∀ lang x, x ∈ libsOf b.Libraries lang ↔ x ∈ libsOf b'.Libraries lang) := by
  cases L with
  | nil => exact absurd rfl hne
  | cons c rest =>
    cases hL' : L' with
    | nil =>
      rw [hL'] at hp
      exact absurd hp.eq_nil (by simp)
    | cons c' rest' =>
      rw [hL'] at hp
      have hk' : ∀ d ∈ (c' :: rest'), dayKeyString d.Date = k :=
        fun d hd => hk d (hp.mem_iff.mpr hd)
      have hkeys' : ∀ d ∈ (c' :: rest'), (d.Libraries.map Prod.fst).Nodup :=
        fun d hd => hkeys d (hp.mem_iff.mpr hd)
      have hhead : dayKeyString c.Date = k := hk c (List.mem_cons_self c rest)
      have hhead' : dayKeyString c'.Date = k := hk' c' (List.mem_cons_self c' rest')
      obtain ⟨b, hb, hbD, _, hbC, hbI, hbDel, hbE, hbL⟩ :=
        aggregate_single_key_fields c rest
          (fun d hd => by rw [hk d hd, hhead]) hkeys
      obtain ⟨b', hb', hbD', _, hbC', hbI', hbDel', hbE', hbL'⟩ :=
        aggregate_single_key_fields c' rest'
          (fun d hd => by rw [hk' d hd, hhead']) hkeys'
      refine ⟨b, b', hb, hb', ?_, ?_, ?_, ?_, ?_, ?_⟩
      · rw [hbD, hbD', hhead, hhead']
      · rw [hbC, hbC']
        have hlen := hp.length_eq
        simp only [List.length_cons] at hlen
        have : rest.length = rest'.length := by omega
        rw [this]
      · rw [hbI, hbI']
        exact (hp.map commitInsertionsOf).sum_eq
      · rw [hbDel, hbDel']
        exact (hp.map commitDeletionsOf).sum_eq
      · intro x
        rw [hbE x, hbE' x]
        exact (hp.map (fun d => d.AuthorEmail)).mem_iff
      · intro lang x
        rw [hbL lang x, hbL' lang x]
        constructor
        · rintro ⟨d, hd, hrest⟩
          exact ⟨d, hp.mem_iff.mp hd, hrest⟩
        · rintro ⟨d, hd, hrest⟩
          exact ⟨d, hp.mem_iff.mpr hd, hrest⟩

/-- C2 witness: the two orders of `cGo` and `cPy`. -/
theorem c2_aggregation_perm_invariant_witness :
    [cGo, cPy].Perm [cPy, cGo] ∧
    (∃ b b', aggregateExport [cGo, cPy] = [b] ∧ aggregateExport [cPy, cGo] = [b'] ∧
      b.Date = b'.Date ∧ b.Commits = b'.Commits ∧
      b.Insertions = b'.Insertions ∧ b.Deletions = b'.Deletions ∧
      (∀ x, x ∈ b.AuthorEmails ↔ x ∈ b'.AuthorEmails) ∧
      (∀ lang x, x ∈ libsOf b.Libraries lang ↔ x ∈ libsOf b'.Libraries lang)) :=
  ⟨List.Perm.swap cPy cGo [],
   c2_aggregation_perm_invariant [cGo, cPy] [cPy, cGo]
     "2024-01-01 00:00:00 +0000 UTC" (List.Perm.swap cPy cGo [])
     (by decide) (by decide) (by decide)⟩

/-- C3: without a deadline every consumed commit is emitted exactly
once with one completion signal; but when the deadline has expired
before a commit's file loop starts, the cancellation branch's
`continue` re-enters the loop and re-emits the commit once per
remaining file, so a two-file commit is emitted three times (twice
from the cancellation branch, once after the loop), not once. -/
theorem c3_worker_emission_counts :
    (∀ (env : WEnv) (c : Commit), (libraryWorkerCommit env none c).length = 1) ∧
    (libraryWorkerCommit envT (some 0) cT).length = 3 := by
  constructor
  · intro env c
    simp [libraryWorkerCommit, runFiles_none_noemit]
  · decide

/-- C4 counterexample: a batch whose only line has the unparsable stat
field `abc` makes the worker return a conversion error, yet the
harvest-level outcome is still `.ok` (the goroutine wrapper only
prints the error and `getCommits` returns a nil error), so the
pipeline does not fail. -/
theorem c4_error_swallowed_cex :
    parseLogLines (fun _ => none) ["abc 2 f.go"] none [] =
      .error "Cannot convert the following into integer: abc" ∧
    harvestOutcome [parseLogLines (fun _ => none) ["abc 2 f.go"] none []] =
      .ok [] :=
  ⟨rfl, rfl⟩

/-- C4 (amended): a log batch containing an unparsable numeric stat
field, or a stat line before any commit header (unless the rename
predicate skips it), aborts THAT WORKER's parse with an error — but
the coordinator only logs worker errors, and the harvest outcome is
`.ok` regardless of the worker outcomes, so the pipeline does not
fail. -/
theorem c4_worker_aborts_pipeline_survives (reformat : String → Option String)
    (lines : List String)
    (h : (∃ m ∈ lines, badStatField m) ∨
         (∃ pre m rest, lines = pre ++ m :: rest ∧
            (∀ p ∈ pre, isBeginLine p = false) ∧
            m ≠ "" ∧ isBeginLine m = false ∧
            ¬ ((goAtoi (if getS (goFields m) 0 = "-" then "0" else getS (goFields m) 0)).isSome ∧
               (goAtoi (if getS (goFields m) 1 = "-" then "0" else getS (goFields m) 1)).isSome ∧
               goContains "=>" (getS (goFields m) 2) = true))) :
    (∃ e, parseLogLines reformat lines none [] = .error e) ∧
    (∀ outcomes : List (Except String (List Commit)),
      ∃ cs, harvestOutcome outcomes = .ok cs) := by
  constructor
  · rcases h with h | ⟨pre, m, rest, rfl, hpre, hne, hnb, hns⟩
    · exact parseLogLines_error_of_bad reformat lines none [] h
    · exact parseLogLines_error_before_header reformat pre m rest [] hpre hne hnb hns
  · intro outcomes
    exact harvestOutcome_never_error outcomes

/-- C4 witness: the bad-stat-field case at a concrete line. -/
theorem c4_worker_aborts_pipeline_survives_witness :
    (∃ m ∈ ["abc 2 f.go"], badStatField m) ∧
    (∃ e, parseLogLines (fun _ => none) ["abc 2 f.go"] none [] = .error e) :=
  ⟨by decide,
   (c4_worker_aborts_pipeline_survives (fun _ => none) ["abc 2 f.go"]
     (Or.inl (by decide))).1⟩

/-- C5 counterexample: a numstat row whose path field carries the
rename marker as its own token IS skipped — the predicate
`strings.Contains` with reversed arguments is true when the examined
field is itself a substring of the marker — so the predicate is not
unconditionally false and such a row is not appended. -/
theorem c5_rename_token_skipped_cex :
    goContains "=>" "=>" = true ∧
    parseLogLines (fun _ => none)
      ["|||BEGIN|||h|||SEP|||Ann|||SEP|||ann@x|||SEP|||baddate", "1 2 => b"] none [] =
      .ok [{ Hash := "h", AuthorName := "Ann", AuthorEmail := "ann@x", Date := "",
             ChangedFiles := [], Libraries := [] }] :=
  ⟨rfl, rfl⟩

/-- C5 (amended): the reversed-argument predicate is false for every
field that is not a substring of the marker itself, so any numstat row
whose third whitespace field is none of "=", ">", "=>" — in particular
the old-path token of an ordinary rename row — is NOT skipped and is
appended to the current commit's changed files. -/
theorem c5_rename_rows_appended (reformat : String → Option String)
    (c : Commit) (m insS delS p : String) (restBits : List String) (i d : Int)
    (hne : m ≠ "") (hnb : isBeginLine m = false)
    (hf : goFields m = insS :: delS :: p :: restBits)
    (hi : goAtoi (if insS = "-" then "0" else insS) = some i)
    (hd : goAtoi (if delS = "-" then "0" else delS) = some d)
    (hp : p ≠ "" ∧ p ≠ "=" ∧ p ≠ ">" ∧ p ≠ "=>") :
    goContains "=>" p = false ∧
    parseLogLines reformat [m] (some c) [] =
      .ok [{ c with ChangedFiles := c.ChangedFiles ++ [⟨p, i, d, ""⟩] }] := by
  have hcf : goContains "=>" p = false := by
    cases hv : goContains "=>" p
    · rfl
    · rcases goContains_marker_cases p hv with h | h | h | h
      · exact absurd h hp.1
      · exact absurd h hp.2.1
      · exact absurd h hp.2.2.1
      · exact absurd h hp.2.2.2
  have h0 : getS (goFields m) 0 = insS := by rw [hf]; rfl
  have h1 : getS (goFields m) 1 = delS := by rw [hf]; rfl
  have h2 : getS (goFields m) 2 = p := by rw [hf]; rfl
  refine ⟨hcf, ?_⟩
  have hstep : parseLogLines reformat [m] (some c) [] =
      parseLogLines reformat []
        (some { c with ChangedFiles := c.ChangedFiles ++ [⟨p, i, d, ""⟩] }) [] := by
    simp [parseLogLines, hne, hnb, h0, h1, h2, hi, hd, hcf]
  rw [hstep]
  rfl

/-- C5 witness: an ordinary rename row `3 0 old.txt => new.txt`, whose
examined field is the old path. -/
theorem c5_rename_rows_appended_witness :
    goFields "3\t0\told.txt => new.txt" = ["3", "0", "old.txt", "=>", "new.txt"] ∧
    goContains "=>" "old.txt" = false ∧
    parseLogLines (fun _ => none) ["3\t0\told.txt => new.txt"] (some {}) [] =
      .ok [{ ChangedFiles := [⟨"old.txt", 3, 0, ""⟩] }] := by
  refine ⟨by decide, ?_, ?_⟩
  · exact (c5_rename_rows_appended (fun _ => none) {} "3\t0\told.txt => new.txt"
      "3" "0" "old.txt" ["=>", "new.txt"] 3 0 (by decide) (by decide) (by decide)
      (by decide) (by decide) (by decide)).1
  · have h := (c5_rename_rows_appended (fun _ => none) {} "3\t0\told.txt => new.txt"
      "3" "0" "old.txt" ["=>", "new.txt"] 3 0 (by decide) (by decide) (by decide)
      (by decide) (by decide) (by decide)).2
    simpa using h

/-- C6 counterexample: for the parseable date
`2024-06-01 01:00:00 +0200` the code's day key is the calendar day
written in the string (2024-06-01), but the UTC day containing the
commit instant is 2024-05-31 (day number 19874, one before 19875), so
the key is NOT the date truncated to a UTC day boundary. -/
theorem c6_day_key_not_utc_day_cex :
    parseFixedDate "2024-06-01 01:00:00 +0200" = some ⟨2024, 6, 1, 1, 0, 0, 120⟩ ∧
    getStartOfDayFromStringDate "2024-06-01 01:00:00 +0200" = (2024, 6, 1) ∧
    epochDays 2024 6 1 = 19875 ∧
    specUtcDayNumber ⟨2024, 6, 1, 1, 0, 0, 120⟩ = 19874 ∧
    ((19875 : Int) = 19874) = False := by
  decide

/-- C6 (amended): for every parseable date the day key is the
year-month-day WRITTEN in the date string (i.e. the commit's calendar
day in its own recorded UTC offset) at midnight UTC; this coincides
with the UTC day containing the commit instant whenever the recorded
offset is zero. -/
theorem c6_day_key_is_written_day (s : String) (t : GoTime)
    (h : parseFixedDate s = some t) :
    getStartOfDayFromStringDate s = (t.year, t.month, t.day) ∧
    (t.offsetMin = 0 → epochDays t.year t.month t.day = specUtcDayNumber t) := by
  refine ⟨getStartOfDay_some s t h, fun hoff => ?_⟩
  obtain ⟨hh, hm⟩ := parseFixedDate_ranges s t h
  exact (specUtcDayNumber_zero_offset t hh hm hoff).symm

/-- C6 witness: a zero-offset date, where the written day and the UTC
day agree. -/
theorem c6_day_key_is_written_day_witness :
    parseFixedDate "2024-01-01 10:00:00 +0000" = some ⟨2024, 1, 1, 10, 0, 0, 0⟩ ∧
    getStartOfDayFromStringDate "2024-01-01 10:00:00 +0000" = (2024, 1, 1) :=
  ⟨by decide,
   (c6_day_key_is_written_day "2024-01-01 10:00:00 +0000"
     ⟨2024, 1, 1, 10, 0, 0, 0⟩ (by decide)).1⟩

/-- C7: every bucket the aggregation fold produces, from the empty
bucket state, stores per-language library lists without duplicate
identifiers. -/
theorem c7_bucket_library_lists_nodup (L : List Commit)
    (b : OptimizedCommitForExport) (hb : b ∈ aggregateExport L)
    (lang : String) (ls : List String)
    (hl : lookupLibs b.Libraries lang = some ls) : ls.Nodup := by
  have hinv := agg_nodup_invariant L [] (by simp) b hb
  have hn := hinv lang
  rw [libsOf, hl] at hn
  simpa using hn

/-- C7 witness: the bucket of `cGo` and its Go list. -/
theorem c7_bucket_library_lists_nodup_witness :
    newBucket cGo ∈ aggregateExport [cGo] ∧
    lookupLibs (newBucket cGo).Libraries "Go" = some ["fmt"] ∧
    (["fmt"] : List String).Nodup :=
  ⟨by decide, by decide,
   c7_bucket_library_lists_nodup [cGo] (newBucket cGo) (by decide) "Go" ["fmt"]
     (by decide)⟩

/-- C8 counterexample: the post-processing removes EVERY occurrence of
the relative-path marker, not only leading ones.  With an analyzer
extracting `a/../b` the worker stores `a/b`, while stripping only
leading markers (the spec's wording) would keep `a/../b`. -/
theorem c8_strip_not_only_leading_cex :
    (analyzeFile envC8 "h" ⟨"x.go", 1, 0, ""⟩ []).2 = [("Go", ["a/b"])] ∧
    stripLeadingDotDot "a/../b" = "a/../b" ∧
    (([("Go", ["a/b"])] : Libs) = [("Go", ["a/../b"])]) = False := by
  decide

/-- C8 (amended): for every file the analysis loop inspects, either
the per-commit library map is left unchanged, or the identifier list
appended to it is EXACTLY the list the language's registered analyzer
extracted from the file's retrieved content, each identifier with
every occurrence of the relative-path marker removed (not only the
leading ones). -/
theorem c8_stored_identifiers_stripped (env : WEnv) (hash : String)
    (f : ChangedFile) (libs : Libs) :
    (analyzeFile env hash f libs).2 = libs ∨
      ∃ lang analyzer contents,
        env.getAnalyzer lang = some analyzer ∧
        env.getFileContent hash f.Path = some contents ∧
        (analyzeFile env hash f libs).2 =
          addLibs libs lang ((analyzer contents).map stripDotDot) := by
  unfold analyzeFile
  by_cases h1 : filepathExt f.Path = ""
  · simp [h1]
  · simp only [h1, if_false]
    by_cases h2 : env.shouldUseFile (dropChars 1 (filepathExt f.Path)) = true
    · simp only [h2, if_true]
      cases h3 : env.getFileContent hash f.Path with
      | none => simp
      | some contents =>
        rcases analyzeFileWithLang_libs_shape env hash f libs
            (env.detectLanguageFromFile f.Path contents) (some contents)
            (fun c hc => by rw [h3]; exact hc) with hset | ⟨an, cn, ha, hgc, hset⟩
        · exact Or.inl hset
        · exact Or.inr ⟨_, an, cn, ha, by rw [← h3]; exact hgc, hset⟩
    · simp only [h2, Bool.false_eq_true, if_false]
      rcases analyzeFileWithLang_libs_shape env hash f libs
          (env.detectLanguageFromExtension (dropChars 1 (filepathExt f.Path))) none
          (fun c hc => absurd hc (by simp)) with hset | ⟨an, cn, ha, hgc, hset⟩
      · exact Or.inl hset
      · exact Or.inr ⟨_, an, cn, ha, hgc, hset⟩

/-- C9: an unparsable stored date (including the empty string the
harvester stores when git's own date line did not parse) makes the
day-key computation silently return Go's zero time — January 1 of
year 1 — instead of failing, so all such commits land in one bucket
keyed by the zero date. -/
theorem c9_unparsable_dates_zero_bucket (c₁ c₂ : Commit)
    (h₁ : parseFixedDate c₁.Date = none) (h₂ : parseFixedDate c₂.Date = none) :
    getStartOfDayFromStringDate c₁.Date = (1, 1, 1) ∧
    getStartOfDayFromStringDate c₂.Date = (1, 1, 1) ∧
    parseFixedDate "" = none ∧
    (aggregateExport [c₁, c₂]).length = 1 := by
  have hk₁ : dayKeyString c₁.Date = goTimeString (1, 1, 1) := by
    rw [dayKeyString, getStartOfDay_none _ h₁]
  have hk₂ : dayKeyString c₂.Date = goTimeString (1, 1, 1) := by
    rw [dayKeyString, getStartOfDay_none _ h₂]
  refine ⟨getStartOfDay_none _ h₁, getStartOfDay_none _ h₂, by decide, ?_⟩
  have hagg : aggregateExport [c₁, c₂] = [mergeBucket (newBucket c₁) c₂] := by
    rw [aggregateExport]
    simp only [List.foldl_cons, List.foldl_nil, exportStep_nil]
    refine exportStep_single_hit (newBucket c₁) c₂ ?_
    have hD : (newBucket c₁).Date = dayKeyString c₁.Date := rfl
    rw [hD, hk₁, hk₂]
  rw [hagg]
  rfl

/-- C9 witness: the empty date string and another unparsable date. -/
theorem c9_unparsable_dates_zero_bucket_witness :
    parseFixedDate "" = none ∧
    (aggregateExport [({ Date := "" } : Commit), ({ Date := "baddate" } : Commit)]).length = 1 :=
  ⟨by decide,
   (c9_unparsable_dates_zero_bucket { Date := "" } { Date := "baddate" }
     (by decide) (by decide)).2.2.2⟩

/-- C10: the analysis loop never alters a changed file's path or line
counts (it only writes the language tag), and the bucket a commit is
aggregated into totals the insertion/deletion counts of ALL its
changed files — also those whose extension is empty or whose language
stayed unknown. -/
theorem c10_line_counts_always_aggregated (env : WEnv) (dl : Option Nat)
    (c : Commit) :
    (workerFinalCommit env dl c).ChangedFiles.map projCF =
      c.ChangedFiles.map projCF ∧
    ∃ b, aggregateExport [workerFinalCommit env dl c] = [b] ∧
      b.Insertions = (c.ChangedFiles.map (fun f => f.Insertions)).sum ∧
      b.Deletions = (c.ChangedFiles.map (fun f => f.Deletions)).sum := by
  have hfiles : (workerFinalCommit env dl c).ChangedFiles.map projCF =
      c.ChangedFiles.map projCF := by
    simp [workerFinalCommit, runFiles_proj]
  have hins : (workerFinalCommit env dl c).ChangedFiles.map (fun f => f.Insertions) =
      c.ChangedFiles.map (fun f => f.Insertions) := by
    have h := congrArg (List.map (fun t : String × Int × Int => t.2.1)) hfiles
    simpa [List.map_map, Function.comp, projCF] using h
  have hdel : (workerFinalCommit env dl c).ChangedFiles.map (fun f => f.Deletions) =
      c.ChangedFiles.map (fun f => f.Deletions) := by
    have h := congrArg (List.map (fun t : String × Int × Int => t.2.2)) hfiles
    simpa [List.map_map, Function.comp, projCF] using h
  refine ⟨hfiles, newBucket (workerFinalCommit env dl c), rfl, ?_, ?_⟩
  · have h1 : (newBucket (workerFinalCommit env dl c)).Insertions =
        commitInsertionsOf (workerFinalCommit env dl c) := rfl
    rw [h1, commitInsertionsOf, commitInsertions_foldl, hins]
    simp
  · have h1 : (newBucket (workerFinalCommit env dl c)).Deletions =
        commitDeletionsOf (workerFinalCommit env dl c) := rfl
    rw [h1, commitDeletionsOf, commitDeletions_foldl, hdel]
    simp

